import Mathlib

/-!
Shallow embedding of the `twenty-first` spectral-transform crate
(`src/fft.rs` and `src/fft/prime_field_element.rs`).

Rust's `i128` arithmetic is modelled by unbounded `Int`; the source's
`%` and `/` on `i128` are truncated (T-rounding) operations, so they are
translated as `Int.tmod` and `Int.tdiv`.  Rust panics are modelled as
`Except`-style error values (the specification maps every panic to one of
its recoverable error kinds), and the non-terminating recursion of
`ntt_fft` is modelled with an explicit fuel parameter: `none` means the
fuel ran out, so termination of the source is `∃ fuel, (… ).isSome`.
-/

set_option maxRecDepth 8000

/-- Error kinds of the specification, section 7.  The source signals the
first two by panicking (`same_field_check`, the odd-length check in
`ntt_fft`/`fft`); the last two never occur in the source. -/
inductive FftError where
  | fieldMismatch
  | invalidLength
  | notInvertible
  | invalidExponent
deriving DecidableEq

/-- `PrimeField { q: i128 }` from `prime_field_element.rs`. -/
structure PrimeField where
  q : Int
deriving DecidableEq

/-- `PrimeFieldElement { value: i128, field: &PrimeField }`.  The borrowed
field reference is modelled by embedding the field value itself; derived
equality compares residue and field, as the Rust `PartialEq` derive does. -/
structure PrimeFieldElement where
  value : Int
  field : PrimeField
deriving DecidableEq

namespace PrimeFieldElement

/-- `PrimeFieldElement::new`: canonicalizes via
`(value % field.q + field.q) % field.q` (truncated `%`). -/
def new (value : Int) (field : PrimeField) : PrimeFieldElement :=
  ⟨((value.tmod field.q) + field.q).tmod field.q, field⟩

/-- The loop body of `egcd`, with the loop's variant `|y|` made explicit as
structural fuel: each iteration replaces `y` by `x % y`, whose absolute value
is strictly smaller, so fuel `y.natAbs + 1` is never exhausted
(`egcdGo_spec` is proved under the hypothesis `y.natAbs < fuel`). -/
def egcdGo : Nat → Int → Int → Int → Int → Int → Int → Int × Int × Int
  | 0, x, _, a0, _, b0, _ => (x, a0, b0)
  | fuel + 1, x, y, a0, a1, b0, b1 =>
    if y = 0 then (x, a0, b0)
    else
      egcdGo fuel y (x.tmod y) a1 (a0 - (x.tdiv y) * a1) b1 (b0 - (x.tdiv y) * b1)

/-- `PrimeFieldElement::egcd`: extended Euclidean algorithm, starting from
`(a0, a1, b0, b1) = (1, 0, 0, 1)` and returning `(x, a0, b0)`. -/
def egcd (x y : Int) : Int × Int × Int :=
  egcdGo (y.natAbs + 1) x y 1 0 0 1

/-- `PrimeFieldElement::inv`: the third component of `egcd(q, value)`,
canonicalized into `[0, q)`. -/
def inv (a : PrimeFieldElement) : PrimeFieldElement :=
  ⟨(((egcd a.field.q a.value).2.2).tmod a.field.q + a.field.q).tmod a.field.q, a.field⟩

/-- The arithmetic performed by `Mul for PrimeFieldElement` once
`same_field_check` has passed: `self.value * other.value % self.field.q`.
The panic branch of the check is modelled by `div`'s guard below; the
transform theorems keep all operands in one field, where the check passes. -/
def mul (a b : PrimeFieldElement) : PrimeFieldElement :=
  ⟨(a.value * b.value).tmod a.field.q, a.field⟩

/-- `Add for PrimeFieldElement` after the field check:
`(self.value + other.value) % self.field.q`. -/
def add (a b : PrimeFieldElement) : PrimeFieldElement :=
  ⟨(a.value + b.value).tmod a.field.q, a.field⟩

/-- `Sub for PrimeFieldElement` after the field check:
`((self.value - other.value) % q + q) % q`. -/
def sub (a b : PrimeFieldElement) : PrimeFieldElement :=
  ⟨((a.value - b.value).tmod a.field.q + a.field.q).tmod a.field.q, a.field⟩

/-- `Div for PrimeFieldElement` after the field check:
`other.inv().value * self.value % self.field.q`.  No invertibility test is
performed by the source. -/
def divVal (a b : PrimeFieldElement) : PrimeFieldElement :=
  ⟨(b.inv.value * a.value).tmod a.field.q, a.field⟩

/-- `Div for PrimeFieldElement` with its `same_field_check` panic made
explicit: the only failure the source's division can raise is the
field-mismatch panic; it never checks invertibility. -/
def div (a b : PrimeFieldElement) : Except FftError PrimeFieldElement :=
  if a.field.q ≠ b.field.q then .error .fieldMismatch else .ok (divVal a b)

/-- One iteration `i` of the `mod_pow` loop handles bit `128 - 1 - i` of the
exponent; here `k` counts the iterations still to run, so the current bit
index is `k - 1`.  `bits` is the two's-complement bit pattern of the `i128`
exponent (`pow & (1 << j) != 0` in the source is `bits.testBit j`). -/
def modPowAux (a : PrimeFieldElement) (bits : Nat) : Nat → PrimeFieldElement → PrimeFieldElement
  | 0, acc => acc
  | k + 1, acc =>
    let acc1 := mul acc acc
    let acc2 := if bits.testBit k then mul acc1 a else acc1
    modPowAux a bits k acc2

/-- `PrimeFieldElement::mod_pow`: square-and-multiply over all 128 bits of
the `i128` exponent, most significant bit first, starting from `acc = 1`.
The bit pattern of an `i128` value `pow` is `(pow % 2^128).toNat`
(`%` is the Euclidean `Int.emod`, which yields the two's-complement
pattern for every `pow` in the `i128` range). -/
def mod_pow (a : PrimeFieldElement) (pow : Int) : PrimeFieldElement :=
  modPowAux a ((pow % (2 ^ 128)).toNat) 128 ⟨1, a.field⟩

/-- `PrimeFieldElement::legendre_symbol`: `mod_pow((q - 1) / 2).value`
(truncated `/`). -/
def legendre_symbol (a : PrimeFieldElement) : Int :=
  (a.mod_pow ((a.field.q - 1).tdiv 2)).value

end PrimeFieldElement

/-- `dft_finite_fields` (`fft.rs`, lines 13-27): the 2-point transform
`[x[0] + x[1], x[0] + omega * x[1]]`.  Called by `ntt_fft` only on inputs of
length 2, so the `getD` defaults are never used. -/
def dft_finite_fields (x : List PrimeFieldElement) (ω : PrimeFieldElement) :
    List PrimeFieldElement :=
  [PrimeFieldElement.add (x.getD 0 ω) (x.getD 1 ω),
   PrimeFieldElement.add (x.getD 0 ω) (PrimeFieldElement.mul ω (x.getD 1 ω))]

/-- Elements at even positions of a list: the `x_even` collected by the
index-parity loop of `ntt_fft` (`fft.rs`, lines 52-61), which pushes `x[i]`
for even `i` in increasing order. -/
def evens {α : Type} : List α → List α
  | [] => []
  | a :: rest =>
    a :: (match rest with
          | [] => []
          | _ :: rest2 => evens rest2)

/-- Elements at odd positions of a list: the `x_odd` of the same loop. -/
def odds {α : Type} : List α → List α
  | [] => []
  | _ :: rest => evens rest

theorem evens_length {α : Type} : ∀ (x : List α), (evens x).length = (x.length + 1) / 2
  | [] => by simp [evens]
  | [_] => by simp [evens]
  | _ :: _ :: rest => by
    have ih := evens_length rest
    simp only [evens, List.length_cons]
    omega

theorem odds_length {α : Type} : ∀ (x : List α), (odds x).length = x.length / 2
  | [] => by simp [odds]
  | _ :: rest => by
    simp only [odds, evens_length rest, List.length_cons]

/-- Sequencing of two computations where the first one's panic (error) or
divergence (`none`) preempts the second, as Rust evaluation order does. -/
def bindRes {α β : Type} (r : Option (Except FftError α))
    (k : α → Option (Except FftError β)) : Option (Except FftError β) :=
  match r with
  | none => none
  | some (.error e) => some (.error e)
  | some (.ok v) => k v

/-- The twiddle computation and recombination of `ntt_fft` (`fft.rs`, lines
68-99): `factor_values[j] = omega.mod_pow(j)` for `j < size`, split into
halves, then `res[i] = even[i] + odd[i] * factor` with the first-half factors
followed by the second-half factors.  Indexing is always in range, so the
`getD` defaults are never used. -/
def recombine (ω : PrimeFieldElement) (size : Nat)
    (even odd : List PrimeFieldElement) : List PrimeFieldElement :=
  let factor_values := (List.range size).map fun j => ω.mod_pow (j : Int)
  let fst_half_factors := factor_values.take (size / 2)
  let snd_half_factors := factor_values.drop (size / 2)
  ((List.range (size / 2)).map fun i =>
    PrimeFieldElement.add (even.getD i ω)
      (PrimeFieldElement.mul (odd.getD i ω) (fst_half_factors.getD i ω)))
  ++ ((List.range (size / 2)).map fun i =>
    PrimeFieldElement.add (even.getD i ω)
      (PrimeFieldElement.mul (odd.getD i ω) (snd_half_factors.getD i ω)))

/-- `ntt_fft` (`fft.rs`, lines 29-114) with an explicit fuel parameter.
The source recurses on both parity halves with the *same* `omega`; on an
odd-length input it panics (`InvalidLength`); on length 2 it applies
`dft_finite_fields`.  On length 0 both recursive calls receive the empty
list again, so the source never terminates: in this model no fuel yields a
`some` result there.  `none` means the fuel was exhausted, so the source
call terminates exactly when some fuel returns `some`. -/
def nttFuel : Nat → List PrimeFieldElement → PrimeFieldElement →
    Option (Except FftError (List PrimeFieldElement))
  | 0, _, _ => none
  | fuel + 1, x, ω =>
    if x.length % 2 == 1 then some (.error .invalidLength)
    else if x.length == 2 then some (.ok (dft_finite_fields x ω))
    else
      bindRes (nttFuel fuel (evens x) ω) fun even =>
        bindRes (nttFuel fuel (odds x) ω) fun odd =>
          some (.ok (recombine ω x.length even odd))

/-- `intt_fft` (`fft.rs`, lines 116-133): `ntt_fft(x, omega.inv())`, then
every entry divided by the field element built from the input length.
All divisions happen in one field, where `Div`'s `same_field_check` passes
and performs exactly the `divVal` arithmetic. -/
def inttFuel (fuel : Nat) (x : List PrimeFieldElement) (ω : PrimeFieldElement) :
    Option (Except FftError (List PrimeFieldElement)) :=
  let length := PrimeFieldElement.new (x.length : Int) ω.field
  bindRes (nttFuel fuel x ω.inv) fun res_scaled =>
    some (.ok (res_scaled.map fun v => PrimeFieldElement.divVal v length))

/-- Modelled from the spec: the complex-number type and its vector/matrix
helpers (`complex_number.rs`, `vector.rs`) are external collaborators that do
not ship with the two core source files.  Per spec section 4.3 the complex
transforms only need addition, multiplication, a zero, and
`ComplexNumber::from_exponential(-2*pi*phase_num/phase_den)`, modelled here
by an abstract twiddle function `tw phase_num phase_den`. -/
def dtf_slow {α : Type} [Add α] [Mul α] [Zero α] (tw : Nat → Nat → α)
    (x : List α) : List α :=
  (List.range x.length).map fun j =>
    ((List.range x.length).map fun k => tw (k * j) x.length * x.getD k 0).foldl
      (fun u v => u + v) 0

/-- `fft` (`fft.rs`, lines 169-190): panics (`InvalidLength`) on odd length,
delegates to `dtf_slow` for `size <= 4`, else splits by parity, recurses on
both halves, and recombines with the twiddles `from_exponential(-2*pi*i/size)`
(here `tw i size`), hadamard-multiplied and concatenated.  Modelled from the
spec for the vector helpers (`split_by_parity`, `split_by_middle`,
`hadamard_product`, `concat`), which live in the external `vector.rs`. -/
def fftC {α : Type} [Add α] [Mul α] [Zero α] (tw : Nat → Nat → α)
    (x : List α) : Except FftError (List α) :=
  if x.length % 2 == 1 then .error .invalidLength
  else if _h4 : x.length ≤ 4 then .ok (dtf_slow tw x)
  else
    match fftC tw (evens x), fftC tw (odds x) with
    | .error e, _ => .error e
    | .ok _, .error e => .error e
    | .ok even, .ok odd =>
      let factor := (List.range x.length).map fun i => tw i x.length
      let fst_half_factors := factor.take (x.length / 2)
      let snd_half_factors := factor.drop (x.length / 2)
      .ok ((List.zipWith (fun u v => u + v) even
              (List.zipWith (fun u v => u * v) odd fst_half_factors))
        ++ (List.zipWith (fun u v => u + v) even
              (List.zipWith (fun u v => u * v) odd snd_half_factors)))
  termination_by x.length
  decreasing_by
  · simp only [evens_length]
    omega
  · simp only [odds_length]
    omega

/-- Decides whether a natural number is a power of two. -/
def isPowTwo : Nat → Bool
  | 0 => false
  | 1 => true
  | n + 2 => (n + 2) % 2 == 0 && isPowTwo ((n + 2) / 2)

/-- `w` is a primitive `n`-th root of unity modulo `q`: `w^n = 1` and no
smaller positive power is `1`. -/
def IsPrimRoot (q w : Int) (n : Nat) : Prop :=
  (w ^ n) % q = 1 % q ∧ ∀ m, m < n → 0 < m → (w ^ m) % q ≠ 1 % q

instance (q w : Int) (n : Nat) : Decidable (IsPrimRoot q w n) := by
  unfold IsPrimRoot
  infer_instance

/-- A canonical element of the field `f`: the invariant of spec section 3. -/
def inField (f : PrimeField) (a : PrimeFieldElement) : Prop :=
  a.field = f ∧ 0 ≤ a.value ∧ a.value < f.q

instance (f : PrimeField) (a : PrimeFieldElement) : Decidable (inField f a) := by
  unfold inField
  infer_instance


section TmodFacts

/-- The truncated remainder's absolute value is `|x| % |y|`. -/
theorem natAbs_tmod_eq (x y : Int) : (Int.tmod x y).natAbs = x.natAbs % y.natAbs := by
  cases x with
  | ofNat m =>
    cases y with
    | ofNat n => rfl
    | negSucc n => rfl
  | negSucc m =>
    cases y with
    | ofNat n =>
      show (-(Int.ofNat (Nat.succ m % n))).natAbs = _
      rw [Int.natAbs_neg]
      rfl
    | negSucc n =>
      show (-(Int.ofNat (Nat.succ m % Nat.succ n))).natAbs = _
      rw [Int.natAbs_neg]
      rfl

theorem tmod_bounds {x q : Int} (hq : 0 < q) : -q < Int.tmod x q ∧ Int.tmod x q < q := by
  have h1 : (Int.tmod x q).natAbs = x.natAbs % q.natAbs := natAbs_tmod_eq x q
  have h2 : x.natAbs % q.natAbs < q.natAbs := Nat.mod_lt _ (by omega)
  omega

/-- `x % q ≡ x` for the truncated remainder. -/
theorem tmod_modEq (x q : Int) : Int.tmod x q ≡ x [ZMOD q] := by
  have h : q ∣ x - Int.tmod x q := ⟨x.tdiv q, by rw [Int.tmod_def]; ring⟩
  exact Int.modEq_iff_dvd.mpr h

/-- The canonicalization pattern `(v % q + q) % q` of the source lands in
`[0, q)` and is congruent to `v`. -/
theorem canon_spec {q : Int} (v : Int) (hq : 0 < q) :
    0 ≤ Int.tmod (Int.tmod v q + q) q ∧ Int.tmod (Int.tmod v q + q) q < q ∧
      Int.tmod (Int.tmod v q + q) q ≡ v [ZMOD q] := by
  have hb := tmod_bounds (x := v) hq
  refine ⟨Int.tmod_nonneg q (by omega), Int.tmod_lt_of_pos _ hq, ?_⟩
  calc Int.tmod (Int.tmod v q + q) q ≡ Int.tmod v q + q [ZMOD q] := tmod_modEq _ q
    _ ≡ v + 0 [ZMOD q] := Int.ModEq.add (tmod_modEq v q) (Int.modEq_zero_iff_dvd.mpr dvd_rfl)
    _ = v := by ring

/-- Two congruent integers in the same residue window are equal. -/
theorem modEq_cancel {a b q : Int} (h : a ≡ b [ZMOD q])
    (ha0 : 0 ≤ a) (haq : a < q) (hb0 : 0 ≤ b) (hbq : b < q) : a = b := by
  have h2 : a % q = b % q := h
  rwa [Int.emod_eq_of_lt ha0 haq, Int.emod_eq_of_lt hb0 hbq] at h2

end TmodFacts

section EgcdFacts

/-- One Euclidean step preserves the gcd: `gcd y (x % y) = gcd x y`
(truncated remainder). -/
theorem gcd_tmod_step (x y : Int) : Int.gcd y (Int.tmod x y) = Int.gcd x y := by
  apply Nat.dvd_antisymm
  · have d1 : (Int.gcd y (Int.tmod x y) : Int) ∣ y := Int.gcd_dvd_left
    have d2 : (Int.gcd y (Int.tmod x y) : Int) ∣ Int.tmod x y := Int.gcd_dvd_right
    have dx : (Int.gcd y (Int.tmod x y) : Int) ∣ x := by
      have hx : Int.tmod x y + y * x.tdiv y = x := Int.tmod_add_tdiv x y
      have hd := dvd_add d2 (Dvd.dvd.mul_right d1 (x.tdiv y))
      rwa [hx] at hd
    exact Int.natCast_dvd_natCast.mp (Int.dvd_gcd dx d1)
  · have d1 : (Int.gcd x y : Int) ∣ x := Int.gcd_dvd_left
    have d2 : (Int.gcd x y : Int) ∣ y := Int.gcd_dvd_right
    have dm : (Int.gcd x y : Int) ∣ Int.tmod x y := by
      rw [Int.tmod_def]
      exact dvd_sub d1 (Dvd.dvd.mul_right d2 _)
    exact Int.natCast_dvd_natCast.mp (Int.dvd_gcd d2 dm)

/-- Invariant of the `egcd` loop: the running coefficient rows stay Bézout
combinations of the original inputs, and the first component of the result
is `gcd` of the inputs whenever they are nonnegative.  The hypothesis
`y.natAbs < fuel` states that the fuel covers the loop variant `|y|`. -/
theorem egcdGo_spec (fuel : Nat) :
    ∀ (x y a0 a1 b0 b1 X Y : Int), y.natAbs < fuel →
      a0 * X + b0 * Y = x → a1 * X + b1 * Y = y →
      ((PrimeFieldElement.egcdGo fuel x y a0 a1 b0 b1).2.1 * X
          + (PrimeFieldElement.egcdGo fuel x y a0 a1 b0 b1).2.2 * Y
          = (PrimeFieldElement.egcdGo fuel x y a0 a1 b0 b1).1)
        ∧ (0 ≤ x → 0 ≤ y →
            (PrimeFieldElement.egcdGo fuel x y a0 a1 b0 b1).1 = (Int.gcd x y : Int)) := by
  induction fuel with
  | zero =>
    intro x y a0 a1 b0 b1 X Y hfuel h0 h1
    exact (Nat.not_lt_zero _ hfuel).elim
  | succ f ih =>
    intro x y a0 a1 b0 b1 X Y hfuel h0 h1
    by_cases hy : y = 0
    · simp only [PrimeFieldElement.egcdGo, if_pos hy]
      refine ⟨h0, fun hx _ => ?_⟩
      rw [hy, Int.gcd_zero_right, Int.natAbs_of_nonneg hx]
    · simp only [PrimeFieldElement.egcdGo, if_neg hy]
      have hfuel2 : (Int.tmod x y).natAbs < f := by
        have he := natAbs_tmod_eq x y
        have h2 : x.natAbs % y.natAbs < y.natAbs := Nat.mod_lt _ (by omega)
        omega
      have hb2 : (a0 - x.tdiv y * a1) * X + (b0 - x.tdiv y * b1) * Y = Int.tmod x y := by
        rw [Int.tmod_def]
        linear_combination h0 - x.tdiv y * h1
      have IH := ih y (Int.tmod x y) a1 (a0 - x.tdiv y * a1) b1 (b0 - x.tdiv y * b1)
        X Y hfuel2 h1 hb2
      refine ⟨IH.1, fun hx hy2 => ?_⟩
      rw [IH.2 hy2 (Int.tmod_nonneg _ hx), gcd_tmod_step]

/-- `egcd x y = (g, s, t)` satisfies `s*x + t*y = g` for all integers, and
`g = gcd x y` for nonnegative inputs. -/
theorem egcd_spec (x y : Int) :
    ((PrimeFieldElement.egcd x y).2.1 * x + (PrimeFieldElement.egcd x y).2.2 * y
        = (PrimeFieldElement.egcd x y).1)
      ∧ (0 ≤ x → 0 ≤ y → (PrimeFieldElement.egcd x y).1 = (Int.gcd x y : Int)) :=
  egcdGo_spec (y.natAbs + 1) x y 1 0 0 1 x y (by omega) (by ring) (by ring)

/-- The canonicalized Bézout coefficient returned by `inv` is in `[0, q)` and
multiplies with `a` to the congruence class of `gcd(q, a.value)`. -/
theorem inv_spec (a : PrimeFieldElement) (hq : 0 < a.field.q) :
    a.inv.field = a.field ∧ 0 ≤ a.inv.value ∧ a.inv.value < a.field.q ∧
      (0 ≤ a.value →
        a.value * a.inv.value ≡ (Int.gcd a.field.q a.value : Int) [ZMOD a.field.q]) := by
  obtain ⟨hc0, hc1, hc2⟩ := canon_spec (q := a.field.q) (PrimeFieldElement.egcd a.field.q a.value).2.2 hq
  refine ⟨rfl, hc0, hc1, fun ha => ?_⟩
  have hbez := (egcd_spec a.field.q a.value).1
  have hg := (egcd_spec a.field.q a.value).2 (le_of_lt hq) ha
  calc a.value * a.inv.value
      ≡ a.value * (PrimeFieldElement.egcd a.field.q a.value).2.2 [ZMOD a.field.q] :=
        Int.ModEq.mul_left _ hc2
    _ ≡ (PrimeFieldElement.egcd a.field.q a.value).2.1 * a.field.q
          + (PrimeFieldElement.egcd a.field.q a.value).2.2 * a.value [ZMOD a.field.q] :=
        Int.modEq_iff_dvd.mpr ⟨(PrimeFieldElement.egcd a.field.q a.value).2.1, by ring⟩
    _ = (PrimeFieldElement.egcd a.field.q a.value).1 := hbez
    _ = (Int.gcd a.field.q a.value : Int) := hg

/-- For a canonical element coprime to the modulus, `a * inv a = 1`. -/
theorem mul_inv_cancel_spec (a : PrimeFieldElement) (hq : 1 < a.field.q)
    (ha : 0 ≤ a.value) (hcop : Int.gcd a.field.q a.value = 1) :
    PrimeFieldElement.mul a a.inv = ⟨1, a.field⟩ := by
  obtain ⟨_, hi0, hi1, hmod⟩ := inv_spec a (by omega)
  have hm := hmod ha
  rw [hcop] at hm
  have hval : (a.value * a.inv.value).tmod a.field.q = 1 := by
    refine modEq_cancel ?_ (Int.tmod_nonneg _ (by positivity)) (Int.tmod_lt_of_pos _ (by omega))
      (by omega) (by omega)
    calc Int.tmod (a.value * a.inv.value) a.field.q
        ≡ a.value * a.inv.value [ZMOD a.field.q] := tmod_modEq _ _
      _ ≡ 1 [ZMOD a.field.q] := by exact_mod_cast hm
  show (⟨(a.value * a.inv.value).tmod a.field.q, a.field⟩ : PrimeFieldElement) = ⟨1, a.field⟩
  rw [hval]

end EgcdFacts

section ModPowFacts

theorem modPowAux_field (a : PrimeFieldElement) (bits : Nat) :
    ∀ (k : Nat) (acc : PrimeFieldElement),
      (PrimeFieldElement.modPowAux a bits k acc).field = acc.field := by
  intro k
  induction k with
  | zero => intro acc; rfl
  | succ k ih =>
    intro acc
    cases hb : bits.testBit k <;>
      simp only [PrimeFieldElement.modPowAux, hb, if_pos, if_neg, Bool.false_eq_true,
        ite_false, ite_true, ih, PrimeFieldElement.mul]

theorem modPowAux_mem (a : PrimeFieldElement) (bits : Nat) (hq : 0 < a.field.q)
    (ha : 0 ≤ a.value) :
    ∀ (k : Nat) (acc : PrimeFieldElement), acc.field = a.field →
      0 ≤ acc.value → acc.value < a.field.q →
      0 ≤ (PrimeFieldElement.modPowAux a bits k acc).value ∧
        (PrimeFieldElement.modPowAux a bits k acc).value < a.field.q := by
  intro k
  induction k with
  | zero => intro acc hf h0 h1; exact ⟨h0, h1⟩
  | succ k ih =>
    intro acc hf h0 h1
    cases hb : bits.testBit k <;>
      simp only [PrimeFieldElement.modPowAux, hb, Bool.false_eq_true, ite_false, ite_true]
    · exact ih _ (by simp [PrimeFieldElement.mul, hf])
        (by simp only [PrimeFieldElement.mul, hf]; exact Int.tmod_nonneg _ (mul_nonneg h0 h0))
        (by simp only [PrimeFieldElement.mul, hf]; exact Int.tmod_lt_of_pos _ hq)
    · refine ih _ (by simp [PrimeFieldElement.mul, hf]) ?_ ?_
      · simp only [PrimeFieldElement.mul, hf]
        exact Int.tmod_nonneg _ (mul_nonneg (Int.tmod_nonneg _ (mul_nonneg h0 h0)) ha)
      · simp only [PrimeFieldElement.mul, hf]
        exact Int.tmod_lt_of_pos _ hq

theorem modPowAux_modEq (a : PrimeFieldElement) (bits : Nat) :
    ∀ (k : Nat) (acc : PrimeFieldElement), acc.field = a.field →
      (PrimeFieldElement.modPowAux a bits k acc).value
        ≡ acc.value ^ (2 ^ k) * a.value ^ (bits % 2 ^ k) [ZMOD a.field.q] := by
  intro k
  induction k with
  | zero =>
    intro acc hf
    simp [PrimeFieldElement.modPowAux, Nat.mod_one]
  | succ k ih =>
    intro acc hf
    have hsplit : bits % 2 ^ (k + 1) = bits % 2 ^ k + 2 ^ k * (bits / 2 ^ k % 2) := by
      rw [pow_succ, Nat.mod_mul]
    cases hb : bits.testBit k
    · have hbit : bits / 2 ^ k % 2 = 0 := by
        have hd := Nat.testBit_to_div_mod (x := bits) (i := k)
        rw [hb] at hd
        have : ¬ (bits / 2 ^ k % 2 = 1) := of_decide_eq_false hd.symm
        omega
      have step : (PrimeFieldElement.mul acc acc).value
          ≡ acc.value * acc.value [ZMOD a.field.q] := by
        simp only [PrimeFieldElement.mul, hf]
        exact tmod_modEq _ _
      have IH := ih (PrimeFieldElement.mul acc acc) (by simp [PrimeFieldElement.mul, hf])
      calc (PrimeFieldElement.modPowAux a bits (k + 1) acc).value
          = (PrimeFieldElement.modPowAux a bits k (PrimeFieldElement.mul acc acc)).value := by
            simp only [PrimeFieldElement.modPowAux, hb, Bool.false_eq_true, ite_false]
        _ ≡ (PrimeFieldElement.mul acc acc).value ^ (2 ^ k)
              * a.value ^ (bits % 2 ^ k) [ZMOD a.field.q] := IH
        _ ≡ (acc.value * acc.value) ^ (2 ^ k) * a.value ^ (bits % 2 ^ k) [ZMOD a.field.q] :=
            Int.ModEq.mul_right _ (Int.ModEq.pow _ step)
        _ = acc.value ^ (2 ^ (k + 1)) * a.value ^ (bits % 2 ^ (k + 1)) := by
            rw [hsplit, hbit]
            ring
    · have hbit : bits / 2 ^ k % 2 = 1 := by
        have hd := Nat.testBit_to_div_mod (x := bits) (i := k)
        rw [hb] at hd
        exact of_decide_eq_true hd.symm
      have step : (PrimeFieldElement.mul (PrimeFieldElement.mul acc acc) a).value
          ≡ acc.value * acc.value * a.value [ZMOD a.field.q] := by
        simp only [PrimeFieldElement.mul, hf]
        calc Int.tmod ((Int.tmod (acc.value * acc.value) a.field.q) * a.value) a.field.q
            ≡ (Int.tmod (acc.value * acc.value) a.field.q) * a.value [ZMOD a.field.q] :=
              tmod_modEq _ _
          _ ≡ acc.value * acc.value * a.value [ZMOD a.field.q] :=
              Int.ModEq.mul_right _ (tmod_modEq _ _)
      have IH := ih (PrimeFieldElement.mul (PrimeFieldElement.mul acc acc) a)
        (by simp [PrimeFieldElement.mul, hf])
      calc (PrimeFieldElement.modPowAux a bits (k + 1) acc).value
          = (PrimeFieldElement.modPowAux a bits k
              (PrimeFieldElement.mul (PrimeFieldElement.mul acc acc) a)).value := by
            simp only [PrimeFieldElement.modPowAux, hb, ite_true]
        _ ≡ (PrimeFieldElement.mul (PrimeFieldElement.mul acc acc) a).value ^ (2 ^ k)
              * a.value ^ (bits % 2 ^ k) [ZMOD a.field.q] := IH
        _ ≡ (acc.value * acc.value * a.value) ^ (2 ^ k)
              * a.value ^ (bits % 2 ^ k) [ZMOD a.field.q] :=
            Int.ModEq.mul_right _ (Int.ModEq.pow _ step)
        _ = acc.value ^ (2 ^ (k + 1)) * a.value ^ (bits % 2 ^ (k + 1)) := by
            rw [hsplit, hbit]
            ring

/-- `mod_pow` interprets the exponent's 128-bit two's-complement pattern as an
unsigned exponent: for every `pow`, the result is the canonical representative
of `a.value ^ (pow mod 2^128)`. -/
theorem mod_pow_spec (a : PrimeFieldElement) (pow : Int) (hq : 1 < a.field.q)
    (ha : 0 ≤ a.value) :
    (a.mod_pow pow).field = a.field ∧
      0 ≤ (a.mod_pow pow).value ∧ (a.mod_pow pow).value < a.field.q ∧
      (a.mod_pow pow).value ≡ a.value ^ ((pow % 2 ^ 128).toNat) [ZMOD a.field.q] := by
  have hbits : (pow % 2 ^ 128).toNat < 2 ^ 128 := by
    have h1 : 0 ≤ pow % 2 ^ 128 := Int.emod_nonneg _ (by positivity)
    have h2 : pow % 2 ^ 128 < 2 ^ 128 := Int.emod_lt_of_pos _ (by positivity)
    omega
  have hmem := modPowAux_mem a ((pow % 2 ^ 128).toNat) (by omega) ha 128 ⟨1, a.field⟩
    rfl (show (0 : Int) ≤ 1 by norm_num) (show (1 : Int) < a.field.q from hq)
  have hcong := modPowAux_modEq a ((pow % 2 ^ 128).toNat) 128 ⟨1, a.field⟩ rfl
  refine ⟨modPowAux_field a _ 128 ⟨1, a.field⟩, hmem.1, hmem.2, ?_⟩
  have hred : (pow % 2 ^ 128).toNat % 2 ^ 128 = (pow % 2 ^ 128).toNat :=
    Nat.mod_eq_of_lt hbits
  have hv : (⟨1, a.field⟩ : PrimeFieldElement).value = 1 := rfl
  rw [hv, one_pow, one_mul, hred] at hcong
  exact hcong

/-- Closed form of `mod_pow`, convenient for rewriting concrete calls. -/
theorem mod_pow_eq (a : PrimeFieldElement) (pow : Int) (hq : 1 < a.field.q)
    (ha : 0 ≤ a.value) :
    a.mod_pow pow
      = ⟨(a.value ^ ((pow % 2 ^ 128).toNat)) % a.field.q, a.field⟩ := by
  obtain ⟨hf, h0, h1, hc⟩ := mod_pow_spec a pow hq ha
  have hval : (a.mod_pow pow).value = (a.value ^ ((pow % 2 ^ 128).toNat)) % a.field.q := by
    refine modEq_cancel ?_ h0 h1 (Int.emod_nonneg _ (by omega)) (Int.emod_lt_of_pos _ (by omega))
    have h3 := Int.emod_emod_of_dvd (a.value ^ ((pow % 2 ^ 128).toNat)) (dvd_refl a.field.q)
    exact hc.trans h3.symm
  have heta : a.mod_pow pow = ⟨(a.mod_pow pow).value, (a.mod_pow pow).field⟩ := rfl
  rw [heta, hval, hf]

/-- For small nonnegative exponents the bit pattern is the exponent itself. -/
theorem mod_pow_eq_of_nonneg (a : PrimeFieldElement) (pow : Int) (hq : 1 < a.field.q)
    (ha : 0 ≤ a.value) (h0 : 0 ≤ pow) (h1 : pow < 2 ^ 128) :
    a.mod_pow pow = ⟨(a.value ^ pow.toNat) % a.field.q, a.field⟩ := by
  rw [mod_pow_eq a pow hq ha, Int.emod_eq_of_lt h0 h1]

end ModPowFacts

section TransformFacts

theorem isPowTwo_two : isPowTwo 2 = true := by simp [isPowTwo]

theorem isPowTwo_step (n : Nat) (h2 : 2 ≤ n) (he : n % 2 = 0) :
    isPowTwo n = isPowTwo (n / 2) := by
  obtain ⟨m, rfl⟩ : ∃ m, n = m + 2 := ⟨n - 2, by omega⟩
  simp [isPowTwo, he]

theorem isPowTwo_odd (n : Nat) (ho : n % 2 = 1) (h1 : n ≠ 1) : isPowTwo n = false := by
  match n, ho, h1 with
  | 0, ho, _ => simp at ho
  | 1, _, h1 => exact absurd rfl h1
  | m + 2, ho, _ => simp [isPowTwo, Nat.add_mod, ho]

theorem bindRes_none {α β : Type} (k : α → Option (Except FftError β)) :
    bindRes none k = none := rfl

theorem bindRes_error {α β : Type} (e : FftError) (k : α → Option (Except FftError β)) :
    bindRes (some (.error e)) k = some (.error e) := rfl

theorem bindRes_ok {α β : Type} (v : α) (k : α → Option (Except FftError β)) :
    bindRes (some (.ok v)) k = k v := rfl

/-- More fuel never changes a result that was already reached. -/
theorem nttFuel_mono (f : Nat) :
    ∀ (f2 : Nat), f ≤ f2 → ∀ x ω r, nttFuel f x ω = some r → nttFuel f2 x ω = some r := by
  induction f with
  | zero =>
    intro f2 _ x ω r h
    simp [nttFuel] at h
  | succ k ih =>
    intro f2 hle x ω r h
    obtain ⟨k2, rfl⟩ : ∃ k2, f2 = k2 + 1 := ⟨f2 - 1, by omega⟩
    have hk : k ≤ k2 := by omega
    simp only [nttFuel] at h ⊢
    by_cases hodd : (x.length % 2 == 1) = true
    · rw [if_pos hodd] at h ⊢; exact h
    · rw [if_neg hodd] at h ⊢
      by_cases h2 : (x.length == 2) = true
      · rw [if_pos h2] at h ⊢; exact h
      · rw [if_neg h2] at h ⊢
        cases c1 : nttFuel k (evens x) ω with
        | none => rw [c1, bindRes_none] at h; exact absurd h (by simp)
        | some r1 =>
          rw [c1] at h
          rw [ih k2 hk _ _ _ c1]
          cases r1 with
          | error e => exact h
          | ok ev =>
            rw [bindRes_ok] at h ⊢
            cases c2 : nttFuel k (odds x) ω with
            | none => rw [c2, bindRes_none] at h; exact absurd h (by simp)
            | some r2 =>
              rw [c2] at h
              rw [ih k2 hk _ _ _ c2]
              exact h

/-- With fuel equal to the length, the transform of any nonempty input
reaches a result (a value or an `InvalidLength` panic). -/
theorem nttFuel_total :
    ∀ (n : Nat) (x : List PrimeFieldElement) (ω : PrimeFieldElement),
      x.length = n → 1 ≤ n → ∃ r, nttFuel n x ω = some r := by
  intro n
  induction n using Nat.strong_induction_on with
  | _ n ih =>
    intro x ω hlen h1
    obtain ⟨m, rfl⟩ : ∃ m, n = m + 1 := ⟨n - 1, by omega⟩
    simp only [nttFuel]
    by_cases hodd : (x.length % 2 == 1) = true
    · exact ⟨_, by rw [if_pos hodd]⟩
    · rw [if_neg hodd]
      by_cases h2 : (x.length == 2) = true
      · exact ⟨_, by rw [if_pos h2]⟩
      · rw [if_neg h2]
        have hpar : x.length % 2 = 0 := by
          rcases Nat.mod_two_eq_zero_or_one x.length with hz | ho
          · exact hz
          · exact absurd (by simpa using ho) hodd
        have hne2 : x.length ≠ 2 := by simpa using h2
        have hge : 4 ≤ x.length := by omega
        have he : (evens x).length = x.length / 2 := by rw [evens_length]; omega
        have ho2 : (odds x).length = x.length / 2 := odds_length x
        obtain ⟨r1, hr1⟩ := ih (x.length / 2) (by omega) (evens x) ω he (by omega)
        rw [nttFuel_mono _ m (by omega) _ _ _ hr1]
        cases r1 with
        | error e => exact ⟨_, bindRes_error e _⟩
        | ok ev =>
          rw [bindRes_ok]
          obtain ⟨r2, hr2⟩ := ih (x.length / 2) (by omega) (odds x) ω ho2 (by omega)
          rw [nttFuel_mono _ m (by omega) _ _ _ hr2]
          cases r2 with
          | error e => exact ⟨_, bindRes_error e _⟩
          | ok od => exact ⟨_, bindRes_ok od _⟩

/-- A nonempty input whose length is not a power of two panics with
`InvalidLength`: the leftmost recursive descent reaches an odd length. -/
theorem nttFuel_invalid :
    ∀ (n : Nat) (x : List PrimeFieldElement) (ω : PrimeFieldElement),
      x.length = n → 1 ≤ n → isPowTwo n = false →
      nttFuel n x ω = some (.error .invalidLength) := by
  intro n
  induction n using Nat.strong_induction_on with
  | _ n ih =>
    intro x ω hlen h1 hpow
    obtain ⟨m, rfl⟩ : ∃ m, n = m + 1 := ⟨n - 1, by omega⟩
    rw [← hlen] at hpow
    simp only [nttFuel]
    by_cases hodd : (x.length % 2 == 1) = true
    · rw [if_pos hodd]
    · rw [if_neg hodd]
      have hpar : x.length % 2 = 0 := by
        rcases Nat.mod_two_eq_zero_or_one x.length with hz | ho
        · exact hz
        · exact absurd (by simpa using ho) hodd
      have hne2 : x.length ≠ 2 := by
        intro hc
        rw [hc, isPowTwo_two] at hpow
        simp at hpow
      have h2 : ¬ ((x.length == 2) = true) := by simpa using hne2
      rw [if_neg h2]
      have hge : 4 ≤ x.length := by omega
      have he : (evens x).length = x.length / 2 := by rw [evens_length]; omega
      have hhalf : isPowTwo (x.length / 2) = false := by
        rw [← isPowTwo_step x.length (by omega) hpar]
        exact hpow
      have hr1 := ih (x.length / 2) (by omega) (evens x) ω he (by omega) hhalf
      rw [nttFuel_mono _ m (by omega) _ _ _ hr1, bindRes_error]

/-- On the empty input the recursion of `ntt_fft` never terminates: both
parity halves are empty again, so no fuel reaches a result. -/
theorem nttFuel_nil (ω : PrimeFieldElement) :
    ∀ fuel, nttFuel fuel ([] : List PrimeFieldElement) ω = none := by
  intro fuel
  induction fuel with
  | zero => rfl
  | succ k ih =>
    simp only [nttFuel]
    have hc1 : (([] : List PrimeFieldElement).length % 2 == 1) = false := rfl
    have hc2 : (([] : List PrimeFieldElement).length == 2) = false := rfl
    rw [hc1]
    simp only [Bool.false_eq_true, if_false]
    rw [hc2]
    simp only [Bool.false_eq_true, if_false]
    have hev : evens ([] : List PrimeFieldElement) = [] := rfl
    rw [hev, ih, bindRes_none]

theorem isPowTwo_four : isPowTwo 4 = true := by simp [isPowTwo]

theorem fftC_nil {α : Type} [Add α] [Mul α] [Zero α] (tw : Nat → Nat → α) :
    fftC tw ([] : List α) = .ok [] := by
  unfold fftC
  simp [dtf_slow]

theorem fftC_one {α : Type} [Add α] [Mul α] [Zero α] (tw : Nat → Nat → α) (v : α) :
    fftC tw [v] = .error .invalidLength := by
  unfold fftC
  simp

/-- A nonempty complex input whose length is not a power of two makes `fft`
panic with `InvalidLength`. -/
theorem fftC_invalid {α : Type} [Add α] [Mul α] [Zero α] (tw : Nat → Nat → α) :
    ∀ (n : Nat) (y : List α), y.length = n → 1 ≤ n → isPowTwo n = false →
      fftC tw y = .error .invalidLength := by
  intro n
  induction n using Nat.strong_induction_on with
  | _ n ih =>
    intro y hlen h1 hpow
    rw [← hlen] at hpow
    unfold fftC
    by_cases hodd : (y.length % 2 == 1) = true
    · rw [if_pos hodd]
    · rw [if_neg hodd]
      have hpar : y.length % 2 = 0 := by
        rcases Nat.mod_two_eq_zero_or_one y.length with hz | ho
        · exact hz
        · exact absurd (by simpa using ho) hodd
      have hne2 : y.length ≠ 2 := by
        intro hc
        rw [hc, isPowTwo_two] at hpow
        simp at hpow
      have hne4 : y.length ≠ 4 := by
        intro hc
        rw [hc, isPowTwo_four] at hpow
        simp at hpow
      have hgt : ¬ (y.length ≤ 4) := by omega
      rw [dif_neg hgt]
      have he : (evens y).length = y.length / 2 := by rw [evens_length]; omega
      have hhalf : isPowTwo (y.length / 2) = false := by
        rw [← isPowTwo_step y.length (by omega) hpar]
        exact hpow
      have hr1 := ih (y.length / 2) (by omega) (evens y) he (by omega) hhalf
      rw [hr1]

end TransformFacts

section InvariantFacts

theorem new_spec (f : PrimeField) (hq : 0 < f.q) (v : Int) :
    inField f (PrimeFieldElement.new v f) ∧
      (PrimeFieldElement.new v f).value ≡ v [ZMOD f.q] := by
  obtain ⟨h0, h1, h2⟩ := canon_spec (q := f.q) v hq
  exact ⟨⟨rfl, h0, h1⟩, h2⟩

theorem ops_mem (f : PrimeField) (hq : 1 < f.q) (a b : PrimeFieldElement)
    (ha : inField f a) (hb : inField f b) :
    inField f (PrimeFieldElement.add a b) ∧ inField f (PrimeFieldElement.sub a b) ∧
      inField f (PrimeFieldElement.mul a b) ∧ inField f (PrimeFieldElement.divVal a b) ∧
      inField f (PrimeFieldElement.inv a) := by
  obtain ⟨haf, ha0, ha1⟩ := ha
  obtain ⟨hbf, hb0, hb1⟩ := hb
  have hqa : a.field.q = f.q := by rw [haf]
  have hqb : b.field.q = f.q := by rw [hbf]
  have hqpos : (0 : Int) < f.q := by omega
  refine ⟨⟨?_, ?_, ?_⟩, ⟨?_, ?_, ?_⟩, ⟨?_, ?_, ?_⟩, ⟨?_, ?_, ?_⟩, ?_⟩
  · simp [PrimeFieldElement.add, haf]
  · simp only [PrimeFieldElement.add, hqa]
    exact Int.tmod_nonneg _ (by omega)
  · simp only [PrimeFieldElement.add, hqa]
    exact Int.tmod_lt_of_pos _ hqpos
  · simp [PrimeFieldElement.sub, haf]
  · simp only [PrimeFieldElement.sub, hqa]
    exact (canon_spec _ hqpos).1
  · simp only [PrimeFieldElement.sub, hqa]
    exact (canon_spec _ hqpos).2.1
  · simp [PrimeFieldElement.mul, haf]
  · simp only [PrimeFieldElement.mul, hqa]
    exact Int.tmod_nonneg _ (mul_nonneg ha0 hb0)
  · simp only [PrimeFieldElement.mul, hqa]
    exact Int.tmod_lt_of_pos _ hqpos
  · simp [PrimeFieldElement.divVal, haf]
  · simp only [PrimeFieldElement.divVal, hqa]
    have hi := (inv_spec b (by omega)).2.1
    exact Int.tmod_nonneg _ (mul_nonneg hi ha0)
  · simp only [PrimeFieldElement.divVal, hqa]
    exact Int.tmod_lt_of_pos _ hqpos
  · obtain ⟨hif, hi0, hi1, _⟩ := inv_spec a (show 0 < a.field.q by omega)
    exact ⟨by rw [hif, haf], hi0, by rw [hqa] at hi1; exact hi1⟩

theorem mod_pow_mem (f : PrimeField) (hq : 1 < f.q) (a : PrimeFieldElement)
    (ha : inField f a) (e : Int) : inField f (PrimeFieldElement.mod_pow a e) := by
  obtain ⟨haf, ha0, ha1⟩ := ha
  obtain ⟨hpf, hp0, hp1, _⟩ := mod_pow_spec a e (by rw [haf]; exact hq) ha0
  exact ⟨by rw [hpf, haf], hp0, by rw [haf] at hp1; exact hp1⟩

end InvariantFacts

section LegendreFacts

/-- The value computed by `legendre_symbol` is the canonical representative of
`a.value ^ ((p-1)/2)` modulo the prime `p`.  The bound `p < 2^127` is the
`i128` domain of the source, under which the 128-bit exponent window is
exact. -/
theorem legendre_pow_nat (p : ℕ) (hp : p.Prime) (hlt : (p : Int) < 2 ^ 127)
    (a : PrimeFieldElement) (hf : a.field.q = (p : Int)) (h0 : 0 ≤ a.value) :
    0 ≤ PrimeFieldElement.legendre_symbol a ∧
      PrimeFieldElement.legendre_symbol a < (p : Int) ∧
      ((PrimeFieldElement.legendre_symbol a : Int) : ZMod p)
        = ((a.value : Int) : ZMod p) ^ ((p - 1) / 2) := by
  have hp2 : 2 ≤ p := hp.two_le
  have hq1 : 1 < a.field.q := by rw [hf]; exact_mod_cast hp2
  have hcast1 : ((p : Int) - 1) = ((p - 1 : ℕ) : Int) := by omega
  have hE : (a.field.q - 1).tdiv 2 = (((p - 1) / 2 : ℕ) : Int) := by
    rw [hf, hcast1]
    rfl
  have hEnn : 0 ≤ (a.field.q - 1).tdiv 2 := by rw [hE]; positivity
  have hElt : (a.field.q - 1).tdiv 2 < 2 ^ 128 := by
    rw [hE]
    have hd : ((p - 1) / 2 : ℕ) ≤ p := by omega
    have hpow : (2 : Int) ^ 127 < 2 ^ 128 := by norm_num
    omega
  obtain ⟨hmf, hm0, hm1, hmc⟩ := mod_pow_spec a ((a.field.q - 1).tdiv 2) hq1 h0
  have hmem : (((a.field.q - 1).tdiv 2) % 2 ^ 128) = (a.field.q - 1).tdiv 2 :=
    Int.emod_eq_of_lt hEnn hElt
  rw [hmem] at hmc
  have hleg : PrimeFieldElement.legendre_symbol a
      = (a.mod_pow ((a.field.q - 1).tdiv 2)).value := rfl
  have hexpN : ((a.field.q - 1).tdiv 2).toNat = (p - 1) / 2 := by
    rw [hE]; exact Int.toNat_natCast _
  refine ⟨by rw [hleg]; exact hm0, by rw [hleg]; exact hm1.trans_eq hf, ?_⟩
  rw [hleg]
  have hmc2 : (a.mod_pow ((a.field.q - 1).tdiv 2)).value
      ≡ a.value ^ ((p - 1) / 2) [ZMOD (p : Int)] := by
    rw [← hexpN, ← hf]
    exact hmc
  have hc2 := (ZMod.intCast_eq_intCast_iff _ _ _).mpr hmc2
  rw [hc2]
  push_cast
  rfl

/-- Euler-criterion classification of `legendre_symbol` over a prime modulus:
the value is always one of `0`, `1`, `q-1`; for odd primes it is `0` exactly
on zero, `1` exactly on nonzero squares, and `q-1` exactly on nonsquares.
For `p = 2` the exponent `(q-1)/2` truncates to `0`, so the symbol is `1`
everywhere, including at zero. -/
theorem legendre_classify (p : ℕ) (hp : p.Prime) (hlt : (p : Int) < 2 ^ 127)
    (a : PrimeFieldElement) (hf : a.field.q = (p : Int)) (h0 : 0 ≤ a.value)
    (h1 : a.value < (p : Int)) :
    (PrimeFieldElement.legendre_symbol a = 0 ∨ PrimeFieldElement.legendre_symbol a = 1 ∨
      PrimeFieldElement.legendre_symbol a = (p : Int) - 1) ∧
    (p ≠ 2 →
      ((PrimeFieldElement.legendre_symbol a = 0 ↔ a.value = 0) ∧
       (PrimeFieldElement.legendre_symbol a = 1 ↔
          a.value ≠ 0 ∧ IsSquare ((a.value : Int) : ZMod p)) ∧
       (PrimeFieldElement.legendre_symbol a = (p : Int) - 1 ↔
          a.value ≠ 0 ∧ ¬ IsSquare ((a.value : Int) : ZMod p)))) := by
  haveI : Fact p.Prime := ⟨hp⟩
  have hp2 : 2 ≤ p := hp.two_le
  obtain ⟨hL0, hLp, hcast⟩ := legendre_pow_nat p hp hlt a hf h0
  have hLiff : ∀ c : Int, 0 ≤ c → c < (p : Int) →
      (PrimeFieldElement.legendre_symbol a = c ↔
        ((PrimeFieldElement.legendre_symbol a : Int) : ZMod p) = ((c : Int) : ZMod p)) := by
    intro c hc0 hcp
    constructor
    · intro hc; rw [hc]
    · intro hc
      exact modEq_cancel ((ZMod.intCast_eq_intCast_iff _ _ _).mp hc) hL0 hLp hc0 hcp
  have hA0 : (((a.value : Int) : ZMod p) = 0) ↔ a.value = 0 := by
    rw [ZMod.intCast_zmod_eq_zero_iff_dvd]
    constructor
    · intro hd
      have h2 : a.value % (p : Int) = a.value := Int.emod_eq_of_lt h0 h1
      have h3 : a.value % (p : Int) = 0 := Int.emod_eq_zero_of_dvd hd
      omega
    · intro hv; rw [hv]; exact dvd_zero _
  by_cases hne : p = 2
  · subst hne
    have hL1 : PrimeFieldElement.legendre_symbol a = 1 := by
      rw [hLiff 1 (by norm_num) (by norm_num)]
      rw [hcast]
      norm_num
    exact ⟨Or.inr (Or.inl hL1), fun hc => absurd rfl hc⟩
  · have hodd : p % 2 = 1 := Nat.odd_iff.mp (hp.odd_of_ne_two hne)
    have hp3 : 3 ≤ p := by omega
    haveI : Fact (2 < p) := ⟨by omega⟩
    have hexp : (p - 1) / 2 = p / 2 := by omega
    have hkpos : (p - 1) / 2 ≠ 0 := by omega
    by_cases hv : a.value = 0
    · have hAz : ((a.value : Int) : ZMod p) = 0 := hA0.mpr hv
      have hLz : PrimeFieldElement.legendre_symbol a = 0 := by
        rw [hLiff 0 (by norm_num) (by exact_mod_cast by omega)]
        rw [hcast, hAz, zero_pow hkpos]
        norm_num
      refine ⟨Or.inl hLz, fun _ => ⟨?_, ?_, ?_⟩⟩
      · simp [hLz, hv]
      · constructor
        · intro hc; rw [hLz] at hc; norm_num at hc
        · rintro ⟨hvne, _⟩; exact absurd hv hvne
      · constructor
        · intro hc
          rw [hLz] at hc
          have : (p : Int) = 1 := by omega
          have : (1 : Int) < (p : Int) := by exact_mod_cast hp2
          omega
        · rintro ⟨hvne, _⟩; exact absurd hv hvne
    · have hAne : ((a.value : Int) : ZMod p) ≠ 0 := fun hc => hv (hA0.mp hc)
      have heuler := ZMod.euler_criterion p hAne
      have hdich := ZMod.pow_div_two_eq_neg_one_or_one p hAne
      have hcast2 : ((PrimeFieldElement.legendre_symbol a : Int) : ZMod p)
          = ((a.value : Int) : ZMod p) ^ (p / 2) := by rw [hcast, hexp]
      have hpm1 : (((p : Int) - 1 : Int) : ZMod p) = -1 := by
        push_cast
        simp [ZMod.natCast_self]
      have hne01 : (0 : Int) ≠ 1 := by norm_num
      have h1p : (1 : Int) < (p : Int) := by exact_mod_cast hp2
      have hne1pm : (1 : Int) ≠ (p : Int) - 1 := by
        intro hc
        have : (p : Int) = 2 := by omega
        have : p = 2 := by exact_mod_cast this
        exact hne this
      rcases hdich with hY | hY
      · have hL1 : PrimeFieldElement.legendre_symbol a = 1 := by
          rw [hLiff 1 (by norm_num) (by omega)]
          rw [hcast2, hY]
          norm_num
        refine ⟨Or.inr (Or.inl hL1), fun _ => ⟨?_, ?_, ?_⟩⟩
        · constructor
          · intro hc; rw [hL1] at hc; exact absurd hc.symm hne01
          · intro hc; exact absurd hc hv
        · constructor
          · intro _; exact ⟨hv, heuler.mpr hY⟩
          · intro _; exact hL1
        · constructor
          · intro hc; rw [hL1] at hc; exact absurd hc hne1pm
          · rintro ⟨_, hns⟩; exact absurd (heuler.mpr hY) hns
      · have hLpm : PrimeFieldElement.legendre_symbol a = (p : Int) - 1 := by
          rw [hLiff ((p : Int) - 1) (by omega) (by omega)]
          rw [hcast2, hY, hpm1]
        have hns : ¬ IsSquare ((a.value : Int) : ZMod p) := by
          intro hs
          have h2 := heuler.mp hs
          rw [hY] at h2
          exact (ZMod.neg_one_ne_one) h2
        refine ⟨Or.inr (Or.inr hLpm), fun _ => ⟨?_, ?_, ?_⟩⟩
        · constructor
          · intro hc
            rw [hLpm] at hc
            have : (p : Int) = 1 := by omega
            omega
          · intro hc; exact absurd hc hv
        · constructor
          · intro hc; rw [hLpm] at hc; exact absurd hc.symm hne1pm
          · rintro ⟨_, hs⟩; exact absurd hs hns
        · constructor
          · intro _; exact ⟨hv, hns⟩
          · intro _; exact hLpm

end LegendreFacts

/-- C1: the claimed round-trip identity `intt_fft (ntt_fft x ω) ω = x` fails
on the source code itself.  In the field of modulus 5 (prime), with
`ω = 2` a primitive 4th root of unity and `5 ∤ 4`, the input `[1, 4, 0, 0]`
is transformed to `[0, 4, 2, 3]`, but the inverse transform of that output
returns `[1, 0, 0, 3]`, not the original sequence: the recursion reuses the
un-squared `ω` in both halves, so the inner 2-point transforms use the wrong
root. -/
theorem C1_roundtrip_fails :
    Nat.Prime 5 ∧ IsPrimRoot 5 2 4 ∧ ¬ ((5 : Int) ∣ 4) ∧
    nttFuel 8 [⟨1, ⟨5⟩⟩, ⟨4, ⟨5⟩⟩, ⟨0, ⟨5⟩⟩, ⟨0, ⟨5⟩⟩] ⟨2, ⟨5⟩⟩
      = some (.ok [⟨0, ⟨5⟩⟩, ⟨4, ⟨5⟩⟩, ⟨2, ⟨5⟩⟩, ⟨3, ⟨5⟩⟩]) ∧
    inttFuel 8 [⟨0, ⟨5⟩⟩, ⟨4, ⟨5⟩⟩, ⟨2, ⟨5⟩⟩, ⟨3, ⟨5⟩⟩] ⟨2, ⟨5⟩⟩
      = some (.ok [⟨1, ⟨5⟩⟩, ⟨0, ⟨5⟩⟩, ⟨0, ⟨5⟩⟩, ⟨3, ⟨5⟩⟩]) ∧
    ([⟨1, ⟨5⟩⟩, ⟨0, ⟨5⟩⟩, ⟨0, ⟨5⟩⟩, ⟨3, ⟨5⟩⟩] : List PrimeFieldElement)
      ≠ [⟨1, ⟨5⟩⟩, ⟨4, ⟨5⟩⟩, ⟨0, ⟨5⟩⟩, ⟨0, ⟨5⟩⟩] := by
  refine ⟨by norm_num, by decide, by decide, ?_, ?_, by decide⟩
  · have t0 : PrimeFieldElement.mod_pow ⟨2, ⟨5⟩⟩ 0 = ⟨1, ⟨5⟩⟩ := by
      rw [mod_pow_eq_of_nonneg _ _ (by norm_num) (by norm_num) (by norm_num) (by norm_num)]
      decide
    have t1 : PrimeFieldElement.mod_pow ⟨2, ⟨5⟩⟩ 1 = ⟨2, ⟨5⟩⟩ := by
      rw [mod_pow_eq_of_nonneg _ _ (by norm_num) (by norm_num) (by norm_num) (by norm_num)]
      decide
    have t2 : PrimeFieldElement.mod_pow ⟨2, ⟨5⟩⟩ 2 = ⟨4, ⟨5⟩⟩ := by
      rw [mod_pow_eq_of_nonneg _ _ (by norm_num) (by norm_num) (by norm_num) (by norm_num)]
      decide
    have t3 : PrimeFieldElement.mod_pow ⟨2, ⟨5⟩⟩ 3 = ⟨3, ⟨5⟩⟩ := by
      rw [mod_pow_eq_of_nonneg _ _ (by norm_num) (by norm_num) (by norm_num) (by norm_num)]
      decide
    simp [nttFuel, bindRes, evens, odds, dft_finite_fields, recombine,
      PrimeFieldElement.add, PrimeFieldElement.mul, t0, t1, t2, t3, List.range_succ]
    decide
  · have hwinv : PrimeFieldElement.inv ⟨2, ⟨5⟩⟩ = ⟨3, ⟨5⟩⟩ := by decide
    have t0 : PrimeFieldElement.mod_pow ⟨3, ⟨5⟩⟩ 0 = ⟨1, ⟨5⟩⟩ := by
      rw [mod_pow_eq_of_nonneg _ _ (by norm_num) (by norm_num) (by norm_num) (by norm_num)]
      decide
    have t1 : PrimeFieldElement.mod_pow ⟨3, ⟨5⟩⟩ 1 = ⟨3, ⟨5⟩⟩ := by
      rw [mod_pow_eq_of_nonneg _ _ (by norm_num) (by norm_num) (by norm_num) (by norm_num)]
      decide
    have t2 : PrimeFieldElement.mod_pow ⟨3, ⟨5⟩⟩ 2 = ⟨4, ⟨5⟩⟩ := by
      rw [mod_pow_eq_of_nonneg _ _ (by norm_num) (by norm_num) (by norm_num) (by norm_num)]
      decide
    have t3 : PrimeFieldElement.mod_pow ⟨3, ⟨5⟩⟩ 3 = ⟨2, ⟨5⟩⟩ := by
      rw [mod_pow_eq_of_nonneg _ _ (by norm_num) (by norm_num) (by norm_num) (by norm_num)]
      decide
    have hdiv : ∀ v : PrimeFieldElement,
        PrimeFieldElement.divVal v (PrimeFieldElement.new (4 : Int) ⟨5⟩)
          = ⟨(4 * v.value).tmod v.field.q, v.field⟩ := by
      intro v
      have h4 : (PrimeFieldElement.new (4 : Int) ⟨5⟩).inv = ⟨4, ⟨5⟩⟩ := by decide
      simp [PrimeFieldElement.divVal, h4]
    simp [inttFuel, hwinv, nttFuel, bindRes, evens, odds, dft_finite_fields, recombine,
      PrimeFieldElement.add, PrimeFieldElement.mul, t0, t1, t2, t3, List.range_succ, hdiv]
    decide

/-- C2 counterexample: division by the zero element of the field of modulus
5 does not fail with `NotInvertible`; the source computes the (meaningless)
inverse of 0 via `egcd` and silently returns the value 0. -/
theorem C2_div_by_zero_returns_value :
    (⟨0, ⟨5⟩⟩ : PrimeFieldElement).value = 0 ∧
    PrimeFieldElement.div ⟨1, ⟨5⟩⟩ ⟨0, ⟨5⟩⟩ = .ok ⟨0, ⟨5⟩⟩ ∧
    PrimeFieldElement.div ⟨1, ⟨5⟩⟩ ⟨0, ⟨5⟩⟩ ≠ .error .notInvertible := by
  refine ⟨rfl, by rfl, ?_⟩
  intro hc
  rw [show PrimeFieldElement.div ⟨1, ⟨5⟩⟩ ⟨0, ⟨5⟩⟩
      = .ok ⟨0, ⟨5⟩⟩ from rfl] at hc
  exact Except.noConfusion hc

/-- C2 amended: `Div` performs no invertibility check at all.  For operands
in one field with a zero divisor it silently returns the zero element (the
Bézout coefficient of `egcd(q, 0)` is 0), instead of failing with
`NotInvertible`. -/
theorem C2_amended_div_total (a b : PrimeFieldElement)
    (hf : a.field.q = b.field.q) (hb : b.value = 0) :
    PrimeFieldElement.div a b = .ok ⟨0, a.field⟩ := by
  have hinv : b.inv.value = 0 := by
    simp only [PrimeFieldElement.inv, PrimeFieldElement.egcd, hb]
    have hg : PrimeFieldElement.egcdGo ((0 : Int).natAbs + 1) b.field.q 0 1 0 0 1
        = (b.field.q, 1, 0) := by
      simp [PrimeFieldElement.egcdGo]
    rw [hg]
    simp [Int.zero_tmod, Int.tmod_self]
  simp only [PrimeFieldElement.div, hf, ne_eq, not_true_eq_false, ite_false,
    if_neg, PrimeFieldElement.divVal, hinv]
  simp

/-- C2 amended witness. -/
theorem C2_amended_div_total_witness :
    (⟨1, ⟨5⟩⟩ : PrimeFieldElement).field.q = (⟨0, ⟨5⟩⟩ : PrimeFieldElement).field.q ∧
    (⟨0, ⟨5⟩⟩ : PrimeFieldElement).value = 0 ∧
    PrimeFieldElement.div ⟨1, ⟨5⟩⟩ ⟨0, ⟨5⟩⟩ = .ok ⟨0, (⟨1, ⟨5⟩⟩ : PrimeFieldElement).field⟩ :=
  ⟨rfl, rfl, C2_amended_div_total ⟨1, ⟨5⟩⟩ ⟨0, ⟨5⟩⟩ rfl rfl⟩

/-- C3: the concrete scenario of the repository's own test
`finite_field_fft_four_elements` (modulus 5, `omega = 2`, input
`[1, 4, 0, 0]`).  The forward transform deterministically produces the
4-element sequence `[0, 4, 2, 3]`, but feeding it back into `intt_fft` with
the same `omega` yields `[1, 0, 0, 3]`, not `[1, 4, 0, 0]`: the in-tree
test's assertion fails at index 1 (expected 4, got 0). -/
theorem C3_four_element_scenario :
    nttFuel 8 [⟨1, ⟨5⟩⟩, ⟨4, ⟨5⟩⟩, ⟨0, ⟨5⟩⟩, ⟨0, ⟨5⟩⟩] ⟨2, ⟨5⟩⟩
      = some (.ok [⟨0, ⟨5⟩⟩, ⟨4, ⟨5⟩⟩, ⟨2, ⟨5⟩⟩, ⟨3, ⟨5⟩⟩]) ∧
    ([⟨0, ⟨5⟩⟩, ⟨4, ⟨5⟩⟩, ⟨2, ⟨5⟩⟩, ⟨3, ⟨5⟩⟩] : List PrimeFieldElement).length = 4 ∧
    inttFuel 8 [⟨0, ⟨5⟩⟩, ⟨4, ⟨5⟩⟩, ⟨2, ⟨5⟩⟩, ⟨3, ⟨5⟩⟩] ⟨2, ⟨5⟩⟩
      = some (.ok [⟨1, ⟨5⟩⟩, ⟨0, ⟨5⟩⟩, ⟨0, ⟨5⟩⟩, ⟨3, ⟨5⟩⟩]) ∧
    ([⟨1, ⟨5⟩⟩, ⟨0, ⟨5⟩⟩, ⟨0, ⟨5⟩⟩, ⟨3, ⟨5⟩⟩] : List PrimeFieldElement)
      ≠ [⟨1, ⟨5⟩⟩, ⟨4, ⟨5⟩⟩, ⟨0, ⟨5⟩⟩, ⟨0, ⟨5⟩⟩] := by
  refine ⟨?_, rfl, ?_, by decide⟩
  · have t0 : PrimeFieldElement.mod_pow ⟨2, ⟨5⟩⟩ 0 = ⟨1, ⟨5⟩⟩ := by
      rw [mod_pow_eq_of_nonneg _ _ (by norm_num) (by norm_num) (by norm_num) (by norm_num)]
      decide
    have t1 : PrimeFieldElement.mod_pow ⟨2, ⟨5⟩⟩ 1 = ⟨2, ⟨5⟩⟩ := by
      rw [mod_pow_eq_of_nonneg _ _ (by norm_num) (by norm_num) (by norm_num) (by norm_num)]
      decide
    have t2 : PrimeFieldElement.mod_pow ⟨2, ⟨5⟩⟩ 2 = ⟨4, ⟨5⟩⟩ := by
      rw [mod_pow_eq_of_nonneg _ _ (by norm_num) (by norm_num) (by norm_num) (by norm_num)]
      decide
    have t3 : PrimeFieldElement.mod_pow ⟨2, ⟨5⟩⟩ 3 = ⟨3, ⟨5⟩⟩ := by
      rw [mod_pow_eq_of_nonneg _ _ (by norm_num) (by norm_num) (by norm_num) (by norm_num)]
      decide
    simp [nttFuel, bindRes, evens, odds, dft_finite_fields, recombine,
      PrimeFieldElement.add, PrimeFieldElement.mul, t0, t1, t2, t3, List.range_succ]
    decide
  · have hwinv : PrimeFieldElement.inv ⟨2, ⟨5⟩⟩ = ⟨3, ⟨5⟩⟩ := by decide
    have t0 : PrimeFieldElement.mod_pow ⟨3, ⟨5⟩⟩ 0 = ⟨1, ⟨5⟩⟩ := by
      rw [mod_pow_eq_of_nonneg _ _ (by norm_num) (by norm_num) (by norm_num) (by norm_num)]
      decide
    have t1 : PrimeFieldElement.mod_pow ⟨3, ⟨5⟩⟩ 1 = ⟨3, ⟨5⟩⟩ := by
      rw [mod_pow_eq_of_nonneg _ _ (by norm_num) (by norm_num) (by norm_num) (by norm_num)]
      decide
    have t2 : PrimeFieldElement.mod_pow ⟨3, ⟨5⟩⟩ 2 = ⟨4, ⟨5⟩⟩ := by
      rw [mod_pow_eq_of_nonneg _ _ (by norm_num) (by norm_num) (by norm_num) (by norm_num)]
      decide
    have t3 : PrimeFieldElement.mod_pow ⟨3, ⟨5⟩⟩ 3 = ⟨2, ⟨5⟩⟩ := by
      rw [mod_pow_eq_of_nonneg _ _ (by norm_num) (by norm_num) (by norm_num) (by norm_num)]
      decide
    have hdiv : ∀ v : PrimeFieldElement,
        PrimeFieldElement.divVal v (PrimeFieldElement.new (4 : Int) ⟨5⟩)
          = ⟨(4 * v.value).tmod v.field.q, v.field⟩ := by
      intro v
      have h4 : (PrimeFieldElement.new (4 : Int) ⟨5⟩).inv = ⟨4, ⟨5⟩⟩ := by decide
      simp [PrimeFieldElement.divVal, h4]
    simp [inttFuel, hwinv, nttFuel, bindRes, evens, odds, dft_finite_fields, recombine,
      PrimeFieldElement.add, PrimeFieldElement.mul, t0, t1, t2, t3, List.range_succ, hdiv]
    decide

/-- C4 counterexample: the empty sequence has a length (0) that is not a
power of two, yet the complex `fft` does not fail with `InvalidLength`: it
falls into the `size <= 4` base case and returns the empty output (and the
field transform never terminates on it, rather than failing). -/
theorem C4_length_zero_not_rejected :
    isPowTwo 0 = false ∧
    fftC (fun _ _ => (0 : Int)) ([] : List Int) = .ok [] := by
  exact ⟨by simp [isPowTwo], fftC_nil _⟩

/-- C4 amended: for every *nonempty* sequence whose length is not a power of
two, both transforms fail with `InvalidLength`, the failure arising at
whatever recursion level the odd length appears; length 0 is the exception
(`fft` returns an empty result, `ntt_fft` diverges). -/
theorem C4_amended_invalid_length {α : Type} [Add α] [Mul α] [Zero α]
    (tw : Nat → Nat → α) (x : List PrimeFieldElement) (ω : PrimeFieldElement)
    (y : List α) (hx1 : 1 ≤ x.length) (hx2 : isPowTwo x.length = false)
    (hy1 : 1 ≤ y.length) (hy2 : isPowTwo y.length = false) :
    nttFuel x.length x ω = some (.error .invalidLength) ∧
    fftC tw y = .error .invalidLength :=
  ⟨nttFuel_invalid x.length x ω rfl hx1 hx2, fftC_invalid tw y.length y rfl hy1 hy2⟩

/-- C4 amended witness (length 3). -/
theorem C4_amended_invalid_length_witness :
    1 ≤ ([⟨1, ⟨5⟩⟩, ⟨2, ⟨5⟩⟩, ⟨3, ⟨5⟩⟩] : List PrimeFieldElement).length ∧
    isPowTwo ([⟨1, ⟨5⟩⟩, ⟨2, ⟨5⟩⟩, ⟨3, ⟨5⟩⟩] : List PrimeFieldElement).length = false ∧
    1 ≤ ([0, 1, 2] : List Int).length ∧
    isPowTwo ([0, 1, 2] : List Int).length = false ∧
    (nttFuel ([⟨1, ⟨5⟩⟩, ⟨2, ⟨5⟩⟩, ⟨3, ⟨5⟩⟩] : List PrimeFieldElement).length
        [⟨1, ⟨5⟩⟩, ⟨2, ⟨5⟩⟩, ⟨3, ⟨5⟩⟩] ⟨2, ⟨5⟩⟩ = some (.error .invalidLength) ∧
      fftC (fun _ _ => (0 : Int)) ([0, 1, 2] : List Int) = .error .invalidLength) :=
  ⟨by norm_num, by simp [isPowTwo], by norm_num, by simp [isPowTwo],
    C4_amended_invalid_length (fun _ _ => (0 : Int)) [⟨1, ⟨5⟩⟩, ⟨2, ⟨5⟩⟩, ⟨3, ⟨5⟩⟩]
      ⟨2, ⟨5⟩⟩ [0, 1, 2] (by norm_num) (by simp [isPowTwo]) (by norm_num)
      (by simp [isPowTwo])⟩

/-- C5 counterexample: `mod_pow` with the negative exponent `-1` does not
fail with `InvalidExponent`; it treats the 128-bit two's-complement pattern
of `-1` as the unsigned exponent `2^128 - 1` and returns a value:
`2^(2^128-1) = 3` in the field of modulus 5. -/
theorem C5_negative_exponent_returns_value :
    PrimeFieldElement.mod_pow ⟨2, ⟨5⟩⟩ (-1) = ⟨3, ⟨5⟩⟩ := by
  rw [mod_pow_eq _ _ (by norm_num) (by norm_num)]
  have hN : (((-1 : Int) % 2 ^ 128).toNat) = 2 ^ 128 - 1 := by decide
  rw [hN]
  have hdecomp : (2 ^ 128 - 1 : Nat) = 4 * (2 ^ 126 - 1) + 3 := by norm_num
  have key : (2 : Int) ^ (2 ^ 128 - 1 : Nat) % 5 = 3 := by
    rw [hdecomp, pow_add, pow_mul]
    have h16 : ((2 : Int) ^ 4) = 16 := by norm_num
    rw [h16]
    have hc : (16 : Int) ^ (2 ^ 126 - 1 : Nat) ≡ 1 ^ (2 ^ 126 - 1 : Nat) [ZMOD 5] :=
      Int.ModEq.pow _ (show (16 : Int) % 5 = 1 % 5 by norm_num)
    have hm : (16 : Int) ^ (2 ^ 126 - 1 : Nat) * 2 ^ 3
        ≡ 1 ^ (2 ^ 126 - 1 : Nat) * 2 ^ 3 [ZMOD 5] := hc.mul_right _
    have hfin : (1 ^ (2 ^ 126 - 1 : Nat) * 2 ^ 3 : Int) % 5 = 3 := by norm_num
    calc (16 : Int) ^ (2 ^ 126 - 1 : Nat) * 2 ^ 3 % 5
        = (1 ^ (2 ^ 126 - 1 : Nat) * 2 ^ 3 : Int) % 5 := hm
      _ = 3 := hfin
  rw [key]

/-- C5 amended: `mod_pow` never fails; for every exponent, negative ones
included, it returns the canonical representative of
`a.value ^ ((pow mod 2^128))`, the exponent being the 128-bit
two's-complement pattern of the `i128` argument read as unsigned. -/
theorem C5_amended_mod_pow_total (a : PrimeFieldElement) (pow : Int)
    (hq : 1 < a.field.q) (ha : 0 ≤ a.value) :
    a.mod_pow pow = ⟨(a.value ^ ((pow % 2 ^ 128).toNat)) % a.field.q, a.field⟩ :=
  mod_pow_eq a pow hq ha

/-- C5 amended witness. -/
theorem C5_amended_mod_pow_total_witness :
    (1 : Int) < (⟨2, ⟨5⟩⟩ : PrimeFieldElement).field.q ∧
    (0 : Int) ≤ (⟨2, ⟨5⟩⟩ : PrimeFieldElement).value ∧
    PrimeFieldElement.mod_pow ⟨2, ⟨5⟩⟩ (-1)
      = ⟨((⟨2, ⟨5⟩⟩ : PrimeFieldElement).value ^ (((-1 : Int) % 2 ^ 128).toNat))
          % (⟨2, ⟨5⟩⟩ : PrimeFieldElement).field.q, (⟨2, ⟨5⟩⟩ : PrimeFieldElement).field⟩ :=
  ⟨by norm_num, by norm_num, C5_amended_mod_pow_total ⟨2, ⟨5⟩⟩ (-1) (by norm_num) (by norm_num)⟩

/-- C6: every element produced by construction from an arbitrary integer, or
by `add`, `sub`, `mul`, `div`, `inverse`, or `mod_pow` on canonical elements
of a field with modulus `q > 1`, has its residue in `[0, q)`, and the
constructed residue is congruent to the input integer modulo `q`. -/
theorem C6_canonical_invariant (f : PrimeField) (hq : 1 < f.q) (v e : Int)
    (a b : PrimeFieldElement) (ha : inField f a) (hb : inField f b) :
    (inField f (PrimeFieldElement.new v f) ∧
      (PrimeFieldElement.new v f).value ≡ v [ZMOD f.q]) ∧
    inField f (PrimeFieldElement.add a b) ∧
    inField f (PrimeFieldElement.sub a b) ∧
    inField f (PrimeFieldElement.mul a b) ∧
    inField f (PrimeFieldElement.divVal a b) ∧
    inField f (PrimeFieldElement.inv a) ∧
    inField f (PrimeFieldElement.mod_pow a e) := by
  obtain ⟨h1, h2, h3, h4, h5⟩ := ops_mem f hq a b ha hb
  exact ⟨new_spec f (by omega) v, h1, h2, h3, h4, h5, mod_pow_mem f hq a ha e⟩

/-- C6 witness. -/
theorem C6_canonical_invariant_witness :
    (1 : Int) < (⟨5⟩ : PrimeField).q ∧
    inField ⟨5⟩ (⟨2, ⟨5⟩⟩ : PrimeFieldElement) ∧
    inField ⟨5⟩ (⟨0, ⟨5⟩⟩ : PrimeFieldElement) ∧
    ((inField ⟨5⟩ (PrimeFieldElement.new (-7) ⟨5⟩) ∧
        (PrimeFieldElement.new (-7) ⟨5⟩).value ≡ -7 [ZMOD (⟨5⟩ : PrimeField).q]) ∧
      inField ⟨5⟩ (PrimeFieldElement.add ⟨2, ⟨5⟩⟩ ⟨0, ⟨5⟩⟩) ∧
      inField ⟨5⟩ (PrimeFieldElement.sub ⟨2, ⟨5⟩⟩ ⟨0, ⟨5⟩⟩) ∧
      inField ⟨5⟩ (PrimeFieldElement.mul ⟨2, ⟨5⟩⟩ ⟨0, ⟨5⟩⟩) ∧
      inField ⟨5⟩ (PrimeFieldElement.divVal ⟨2, ⟨5⟩⟩ ⟨0, ⟨5⟩⟩) ∧
      inField ⟨5⟩ (PrimeFieldElement.inv ⟨2, ⟨5⟩⟩) ∧
      inField ⟨5⟩ (PrimeFieldElement.mod_pow ⟨2, ⟨5⟩⟩ (-1))) :=
  ⟨by norm_num, by decide, by decide,
    C6_canonical_invariant ⟨5⟩ (by norm_num) (-7) (-1) ⟨2, ⟨5⟩⟩ ⟨0, ⟨5⟩⟩
      (by decide) (by decide)⟩

/-- C7 counterexample: for the negative input `x = -4`, `y = 0`, `egcd`
returns `g = -4`, but `gcd(-4, 0) = 4`: the claimed identity `g = gcd(x, y)`
fails for negative inputs (the Bézout identity still holds there). -/
theorem C7_egcd_negative_input :
    PrimeFieldElement.egcd (-4) 0 = (-4, 1, 0) ∧
    (Int.gcd (-4) 0 : Int) = 4 ∧
    (PrimeFieldElement.egcd (-4) 0).1 ≠ (Int.gcd (-4) 0 : Int) := by
  refine ⟨by decide, by decide, ?_⟩
  intro hc
  rw [show PrimeFieldElement.egcd (-4) 0 = (-4, 1, 0) from by decide] at hc
  simp at hc

/-- C7 amended: `egcd x y = (g, s, t)` satisfies the Bézout identity
`s*x + t*y = g` for all integers, and `g = gcd x y` for nonnegative inputs;
`inv a` is the canonicalization modulo `q` of the second Bézout coefficient
of `egcd(q, a.value)`, and for a canonical `a` with `gcd(a.value, q) = 1`,
`a * inverse(a) = 1`. -/
theorem C7_amended_egcd_inverse (x y : Int) (a : PrimeFieldElement)
    (hq : 1 < a.field.q) (ha0 : 0 ≤ a.value)
    (hcop : Int.gcd a.field.q a.value = 1) :
    ((PrimeFieldElement.egcd x y).2.1 * x + (PrimeFieldElement.egcd x y).2.2 * y
        = (PrimeFieldElement.egcd x y).1) ∧
    (0 ≤ x → 0 ≤ y → (PrimeFieldElement.egcd x y).1 = (Int.gcd x y : Int)) ∧
    (a.inv.value
      = (((PrimeFieldElement.egcd a.field.q a.value).2.2).tmod a.field.q + a.field.q).tmod
          a.field.q) ∧
    PrimeFieldElement.mul a a.inv = ⟨1, a.field⟩ :=
  ⟨(egcd_spec x y).1, (egcd_spec x y).2, rfl,
    mul_inv_cancel_spec a hq ha0 hcop⟩

/-- C7 amended witness, with a negative first input exercising the
unconditional Bézout conjunct. -/
theorem C7_amended_egcd_inverse_witness :
    (1 : Int) < (⟨2, ⟨5⟩⟩ : PrimeFieldElement).field.q ∧
    (0 : Int) ≤ (⟨2, ⟨5⟩⟩ : PrimeFieldElement).value ∧
    Int.gcd (⟨2, ⟨5⟩⟩ : PrimeFieldElement).field.q (⟨2, ⟨5⟩⟩ : PrimeFieldElement).value = 1 ∧
    (((PrimeFieldElement.egcd (-4) 0).2.1 * (-4) + (PrimeFieldElement.egcd (-4) 0).2.2 * 0
        = (PrimeFieldElement.egcd (-4) 0).1) ∧
      ((0 : Int) ≤ -4 → (0 : Int) ≤ 0 →
        (PrimeFieldElement.egcd (-4) 0).1 = (Int.gcd (-4) 0 : Int)) ∧
      ((⟨2, ⟨5⟩⟩ : PrimeFieldElement).inv.value
        = (((PrimeFieldElement.egcd (⟨2, ⟨5⟩⟩ : PrimeFieldElement).field.q
              (⟨2, ⟨5⟩⟩ : PrimeFieldElement).value).2.2).tmod
              (⟨2, ⟨5⟩⟩ : PrimeFieldElement).field.q
            + (⟨2, ⟨5⟩⟩ : PrimeFieldElement).field.q).tmod
            (⟨2, ⟨5⟩⟩ : PrimeFieldElement).field.q) ∧
      PrimeFieldElement.mul ⟨2, ⟨5⟩⟩ (⟨2, ⟨5⟩⟩ : PrimeFieldElement).inv
        = ⟨1, (⟨2, ⟨5⟩⟩ : PrimeFieldElement).field⟩) :=
  ⟨by norm_num, by norm_num, by decide,
    C7_amended_egcd_inverse (-4) 0 ⟨2, ⟨5⟩⟩ (by norm_num) (by norm_num) (by decide)⟩

/-- C8 counterexample: over the prime modulus 2, `legendre_symbol` of the
zero element is 1, not 0: the exponent `(q-1)/2` truncates to 0 and
`mod_pow(a, 0) = 1` for every `a`, so the classification clause
"0 when `a` is zero" fails at `q = 2`. -/
theorem C8_q2_zero_symbol_is_one :
    Nat.Prime 2 ∧
    PrimeFieldElement.legendre_symbol ⟨0, ⟨2⟩⟩ = 1 ∧
    (1 : Int) ≠ 0 := by
  refine ⟨by norm_num, ?_, by norm_num⟩
  have he : ((⟨0, ⟨2⟩⟩ : PrimeFieldElement).field.q - 1).tdiv 2 = 0 := by decide
  show (PrimeFieldElement.mod_pow ⟨0, ⟨2⟩⟩
      (((⟨0, ⟨2⟩⟩ : PrimeFieldElement).field.q - 1).tdiv 2)).value = 1
  rw [he, mod_pow_eq_of_nonneg _ _ (by norm_num) (by norm_num) (by norm_num) (by norm_num)]
  decide

/-- C8 amended: for every prime `p` in the `i128` domain and every canonical
element `a`, `legendre_symbol a` equals `mod_pow(a, (q-1)/2).value` and lies
in `{0, 1, q-1}`; for every *odd* prime the classification holds exactly:
`0` iff `a` is zero, `1` iff `a` is a nonzero quadratic residue, and `q-1`
iff `a` is a nonzero non-residue.  For `p = 2` the symbol is 1 even at zero. -/
theorem C8_amended_legendre (p : Nat) (hp : Nat.Prime p) (hlt : (p : Int) < 2 ^ 127)
    (a : PrimeFieldElement) (hf : a.field.q = (p : Int)) (h0 : 0 ≤ a.value)
    (h1 : a.value < (p : Int)) :
    (PrimeFieldElement.legendre_symbol a
        = (a.mod_pow ((a.field.q - 1).tdiv 2)).value) ∧
    (PrimeFieldElement.legendre_symbol a = 0 ∨ PrimeFieldElement.legendre_symbol a = 1 ∨
      PrimeFieldElement.legendre_symbol a = (p : Int) - 1) ∧
    (p ≠ 2 →
      ((PrimeFieldElement.legendre_symbol a = 0 ↔ a.value = 0) ∧
       (PrimeFieldElement.legendre_symbol a = 1 ↔
          a.value ≠ 0 ∧ IsSquare ((a.value : Int) : ZMod p)) ∧
       (PrimeFieldElement.legendre_symbol a = (p : Int) - 1 ↔
          a.value ≠ 0 ∧ ¬ IsSquare ((a.value : Int) : ZMod p)))) := by
  obtain ⟨hmem, hcls⟩ := legendre_classify p hp hlt a hf h0 h1
  exact ⟨rfl, hmem, hcls⟩

/-- C8 amended witness (p = 3, a = 2, a nonzero non-residue mod 3). -/
theorem C8_amended_legendre_witness :
    Nat.Prime 3 ∧ ((3 : Nat) : Int) < 2 ^ 127 ∧
    (⟨2, ⟨3⟩⟩ : PrimeFieldElement).field.q = ((3 : Nat) : Int) ∧
    (0 : Int) ≤ (⟨2, ⟨3⟩⟩ : PrimeFieldElement).value ∧
    (⟨2, ⟨3⟩⟩ : PrimeFieldElement).value < ((3 : Nat) : Int) ∧
    ((PrimeFieldElement.legendre_symbol ⟨2, ⟨3⟩⟩
        = ((⟨2, ⟨3⟩⟩ : PrimeFieldElement).mod_pow
            (((⟨2, ⟨3⟩⟩ : PrimeFieldElement).field.q - 1).tdiv 2)).value) ∧
      (PrimeFieldElement.legendre_symbol ⟨2, ⟨3⟩⟩ = 0 ∨
        PrimeFieldElement.legendre_symbol ⟨2, ⟨3⟩⟩ = 1 ∨
        PrimeFieldElement.legendre_symbol ⟨2, ⟨3⟩⟩ = ((3 : Nat) : Int) - 1) ∧
      ((3 : Nat) ≠ 2 →
        ((PrimeFieldElement.legendre_symbol ⟨2, ⟨3⟩⟩ = 0 ↔
            (⟨2, ⟨3⟩⟩ : PrimeFieldElement).value = 0) ∧
         (PrimeFieldElement.legendre_symbol ⟨2, ⟨3⟩⟩ = 1 ↔
            (⟨2, ⟨3⟩⟩ : PrimeFieldElement).value ≠ 0 ∧
              IsSquare (((⟨2, ⟨3⟩⟩ : PrimeFieldElement).value : Int) : ZMod 3)) ∧
         (PrimeFieldElement.legendre_symbol ⟨2, ⟨3⟩⟩ = ((3 : Nat) : Int) - 1 ↔
            (⟨2, ⟨3⟩⟩ : PrimeFieldElement).value ≠ 0 ∧
              ¬ IsSquare (((⟨2, ⟨3⟩⟩ : PrimeFieldElement).value : Int) : ZMod 3))))) :=
  ⟨by norm_num, by norm_num, by norm_num, by norm_num, by norm_num,
    C8_amended_legendre 3 (by norm_num) (by norm_num) ⟨2, ⟨3⟩⟩ (by norm_num)
      (by norm_num) (by norm_num)⟩

/-- C9 counterexample: on the empty input sequence `ntt_fft` neither returns
a result nor fails with a defined error: the recursion calls itself on two
empty halves forever, so no amount of fuel produces an outcome. -/
theorem C9_empty_input_diverges :
    ¬ ∃ (fuel : Nat) (r : Except FftError (List PrimeFieldElement)),
        nttFuel fuel ([] : List PrimeFieldElement) ⟨2, ⟨5⟩⟩ = some r := by
  rintro ⟨fuel, r, hr⟩
  rw [nttFuel_nil ⟨2, ⟨5⟩⟩ fuel] at hr
  exact Option.noConfusion hr

/-- C9 amended: every call on a *nonempty* sequence terminates: with fuel
equal to the sequence length, the transform reaches a result (a value or a
defined error).  Length 0 is the exception, per the counterexample. -/
theorem C9_amended_nonempty_terminates (x : List PrimeFieldElement)
    (ω : PrimeFieldElement) (h : 1 ≤ x.length) :
    ∃ r, nttFuel x.length x ω = some r :=
  nttFuel_total x.length x ω rfl h

/-- C9 amended witness. -/
theorem C9_amended_nonempty_terminates_witness :
    1 ≤ ([⟨1, ⟨5⟩⟩, ⟨4, ⟨5⟩⟩] : List PrimeFieldElement).length ∧
    ∃ r, nttFuel ([⟨1, ⟨5⟩⟩, ⟨4, ⟨5⟩⟩] : List PrimeFieldElement).length
        [⟨1, ⟨5⟩⟩, ⟨4, ⟨5⟩⟩] ⟨2, ⟨5⟩⟩ = some r :=
  ⟨by norm_num, C9_amended_nonempty_terminates [⟨1, ⟨5⟩⟩, ⟨4, ⟨5⟩⟩] ⟨2, ⟨5⟩⟩ (by norm_num)⟩

/-- C10: a sequence of length exactly 1 is rejected by both transforms with
the `InvalidLength` panic, even though 1 is a power of two: the odd-length
check `size % 2 == 1` fires before any base case applies. -/
theorem C10_length_one_rejected {α : Type} [Add α] [Mul α] [Zero α]
    (tw : Nat → Nat → α) (v : α) (x : PrimeFieldElement) (ω : PrimeFieldElement)
    (fuel : Nat) (hf : 1 ≤ fuel) :
    isPowTwo 1 = true ∧
    nttFuel fuel [x] ω = some (.error .invalidLength) ∧
    fftC tw [v] = .error .invalidLength := by
  obtain ⟨m, rfl⟩ : ∃ m, fuel = m + 1 := ⟨fuel - 1, by omega⟩
  refine ⟨by simp [isPowTwo], ?_, fftC_one tw v⟩
  simp [nttFuel]

/-- C10 witness. -/
theorem C10_length_one_rejected_witness :
    1 ≤ 1 ∧
    (isPowTwo 1 = true ∧
      nttFuel 1 [(⟨3, ⟨5⟩⟩ : PrimeFieldElement)] ⟨2, ⟨5⟩⟩
        = some (.error .invalidLength) ∧
      fftC (fun _ _ => (0 : Int)) [(7 : Int)] = .error .invalidLength) :=
  ⟨by norm_num,
    C10_length_one_rejected (fun _ _ => (0 : Int)) (7 : Int) ⟨3, ⟨5⟩⟩ ⟨2, ⟨5⟩⟩ 1
      (by norm_num)⟩
